import Mathlib

/-!
Verification of the ClayWorks enrichment & qualification core
(`clayworks/data/recipes.py`, `clayworks/core/scoring.py`,
`clayworks/data/enrichment.py`) against its specification.

The Python code is shallowly embedded: dynamically-typed record values
become the tagged union `Value`, dictionaries become association lists,
fallible operations (Python expressions that may raise `TypeError`, and
fetch callables that may raise) return `Except String`.  The wall clock
(`datetime.now()`) is threaded as an explicit `now : Int` parameter
measured in days; timestamps on results (`started_at`, `completed_at`,
`scored_at`, `created_at`) are not modelled since no property below
concerns them.  Python `float` weights are modelled as exact rationals;
the properties proved below do not depend on rounding.
-/

namespace Clayworks

/-- A Python value as stored in a record field map: `None`, a boolean, an
integer, a string, a `datetime` (abstracted to a day count), or a list. -/
inductive Value where
  | none
  | bool (b : Bool)
  | int (n : Int)
  | str (s : String)
  | date (t : Int)
  | list (l : List Value)

/-- Numeric view used by Python's numeric comparisons: `bool` is an `int`
subtype in Python (`True == 1`), so both coerce. -/
def Value.toNum? : Value → Option Int
  | .bool b => some (if b then 1 else 0)
  | .int n => some n
  | _ => Option.none

/-- Whether the value is Python `None`. -/
def Value.isNone : Value → Bool
  | .none => true
  | _ => false

mutual
/-- Python `==` on the supported value kinds.  Never raises: incomparable
kinds compare unequal.  Numbers and booleans compare numerically. -/
def pyEq : Value → Value → Bool
  | .str a, .str b => a == b
  | .date a, .date b => a == b
  | .none, .none => true
  | .list a, .list b => pyEqList a b
  | a, b =>
    match a.toNum?, b.toNum? with
    | some x, some y => x == y
    | _, _ => false

/-- Python `==` on lists: elementwise, equal length. -/
def pyEqList : List Value → List Value → Bool
  | [], [] => true
  | a :: as, b :: bs => pyEq a b && pyEqList as bs
  | _, _ => false
end

/-- Lexicographic comparison of character lists by code point, as Python
compares strings. -/
def charsCmp : List Char → List Char → Ordering
  | [], [] => .eq
  | [], _ :: _ => .lt
  | _ :: _, [] => .gt
  | a :: as, b :: bs =>
    match compare a.toNat b.toNat with
    | .eq => charsCmp as bs
    | o => o

/-- String comparison by code point (Python string ordering). -/
def strCmp (a b : String) : Ordering := charsCmp a.data b.data

mutual
/-- Python ordering comparison (`<`, `>`, `<=`, `>=`).  Numbers (including
booleans) compare numerically, strings lexicographically, datetimes
chronologically, lists lexicographically; any other combination raises
`TypeError`, which the embedding returns as `.error`. -/
def pyCompare : Value → Value → Except String Ordering
  | .str a, .str b => .ok (strCmp a b)
  | .date a, .date b => .ok (compare a b)
  | .list a, .list b => pyCompareList a b
  | a, b =>
    match a.toNum?, b.toNum? with
    | some x, some y => .ok (compare x y)
    | _, _ => .error "TypeError: unsupported comparison between instances"

/-- Python list ordering: skip equal prefixes, then compare the first
differing elements (which may itself raise). -/
def pyCompareList : List Value → List Value → Except String Ordering
  | [], [] => .ok .eq
  | [], _ :: _ => .ok .lt
  | _ :: _, [] => .ok .gt
  | a :: as, b :: bs =>
    if pyEq a b then pyCompareList as bs else pyCompare a b
end

/-- Prefix test on character lists. -/
def charsPrefixOf : List Char → List Char → Bool
  | [], _ => true
  | _ :: _, [] => false
  | a :: as, b :: bs => a == b && charsPrefixOf as bs

/-- Substring occurrence test on character lists (`needle` occurs in the
second argument). -/
def charsContains (needle : List Char) : List Char → Bool
  | [] => charsPrefixOf needle []
  | c :: t => charsPrefixOf needle (c :: t) || charsContains needle t

/-- Python `needle in hay` for strings: substring test. -/
def strContains (hay needle : String) : Bool := charsContains needle.data hay.data

mutual
/-- Python `str()` of a value (used by the CONTAINS operators).  The
datetime rendering is an opaque textual form; no property below depends
on its exact shape. -/
def pyStr : Value → String
  | .none => "None"
  | .bool true => "True"
  | .bool false => "False"
  | .int n => toString n
  | .str s => s
  | .date t => "datetime(" ++ toString t ++ ")"
  | .list l => "[" ++ pyStrListInner l ++ "]"

/-- `str()` of a list body: comma-separated `repr`s of the elements. -/
def pyStrListInner : List Value → String
  | [] => ""
  | [a] => pyRepr a
  | a :: b :: rest => pyRepr a ++ ", " ++ pyStrListInner (b :: rest)

/-- Python `repr()` of a value: like `str()` but strings are quoted. -/
def pyRepr : Value → String
  | .str s => "'" ++ s ++ "'"
  | v => match v with
    | .none => "None"
    | .bool true => "True"
    | .bool false => "False"
    | .int n => toString n
    | .str s => "'" ++ s ++ "'"
    | .date t => "datetime(" ++ toString t ++ ")"
    | .list l => "[" ++ pyStrListInner l ++ "]"
end

/-- Python truthiness of a value (`if x:`). -/
def pyTruthy : Value → Bool
  | .none => false
  | .bool b => b
  | .int n => n != 0
  | .str s => !s.isEmpty
  | .date _ => true
  | .list l => !l.isEmpty

/-- A record: field name to value mapping (Python `Dict[str, Any]`),
modelled as an association list with unique keys. -/
abbrev Dict := List (String × Value)

/-- `data.get(k)`: the bound value, or `None` when the key is absent. -/
def dictGet (d : Dict) (k : String) : Value := (List.lookup k d).getD .none

/-- `d[k] = v`: replace an existing binding in place or append a new one
(Python dicts preserve insertion order). -/
def dictSet (d : Dict) (k : String) (v : Value) : Dict :=
  if d.any (fun p => p.1 == k) then
    d.map (fun p => if p.1 == k then (k, v) else p)
  else d ++ [(k, v)]

/-- `base.update(upd)` / `{**base, **upd}`: later bindings win. -/
def dictUpdate (base upd : Dict) : Dict :=
  upd.foldl (fun acc kv => dictSet acc kv.1 kv.2) base

/-- Python `x in container` (IN_LIST): elementwise `==` for a list,
substring test for a string, `TypeError` otherwise. -/
def pyIn (x container : Value) : Except String Bool :=
  match container with
  | .list l => .ok (l.any (fun y => pyEq x y))
  | .str s =>
    match x with
    | .str xs => .ok (strContains s xs)
    | _ => .error "TypeError: 'in <string>' requires string as left operand"
  | _ => .error "TypeError: argument of type is not iterable"

/-- Python `needle in str(fv)` (CONTAINS): the comparison value must itself
be a string, else `TypeError`. -/
def pyContains (needle fv : Value) : Except String Bool :=
  match needle with
  | .str s => .ok (strContains (pyStr fv) s)
  | _ => .error "TypeError: 'in <string>' requires string as left operand"

/-- `ConditionOperator` enum of `recipes.py`. -/
inductive ConditionOperator where
  | EQUALS | NOT_EQUALS | CONTAINS | NOT_CONTAINS
  | GREATER_THAN | LESS_THAN | GREATER_OR_EQUAL | LESS_OR_EQUAL
  | IN_LIST | NOT_IN_LIST | EXISTS | NOT_EXISTS
  | MATCHES_REGEX | WITHIN_DAYS
deriving DecidableEq

/-- `RecipeCondition` dataclass. -/
structure RecipeCondition where
  field : String
  operator : ConditionOperator
  value : Value
  source : Option String := Option.none

/-- `RecipeCondition.evaluate`, mirroring the source's if-chain: the
EXISTS/NOT_EXISTS operators first, then the missing-field short-circuit,
then one branch per remaining handled operator; unhandled operators
(MATCHES_REGEX) fall through to `return False`.  `now` is the day count
of `datetime.now()`. -/
def RecipeCondition.evaluate (c : RecipeCondition) (data : Dict) (now : Int) :
    Except String Bool :=
  let field_value := dictGet data c.field
  if c.operator = .EXISTS then .ok (!field_value.isNone)
  else if c.operator = .NOT_EXISTS then .ok field_value.isNone
  else if field_value.isNone then .ok false
  else if c.operator = .EQUALS then .ok (pyEq field_value c.value)
  else if c.operator = .NOT_EQUALS then .ok (!pyEq field_value c.value)
  else if c.operator = .CONTAINS then pyContains c.value field_value
  else if c.operator = .NOT_CONTAINS then (pyContains c.value field_value).map (!·)
  else if c.operator = .GREATER_THAN then
    (pyCompare field_value c.value).map (fun o => o = Ordering.gt)
  else if c.operator = .LESS_THAN then
    (pyCompare field_value c.value).map (fun o => o = Ordering.lt)
  else if c.operator = .GREATER_OR_EQUAL then
    (pyCompare field_value c.value).map (fun o => !(o = Ordering.lt))
  else if c.operator = .LESS_OR_EQUAL then
    (pyCompare field_value c.value).map (fun o => !(o = Ordering.gt))
  else if c.operator = .IN_LIST then pyIn field_value c.value
  else if c.operator = .NOT_IN_LIST then (pyIn field_value c.value).map (!·)
  else if c.operator = .WITHIN_DAYS then
    match field_value with
    | .date t => (pyCompare (.int (now - t)) c.value).map (fun o => !(o = Ordering.gt))
    | _ => .ok false
  else .ok false

/-- `ScoringComponent` dataclass of `recipes.py`. -/
structure ScoringComponent where
  name : String
  description : String
  points : Int
  weight_percentage : Rat
  condition : RecipeCondition

/-- `DataRecipe`, restricted to the fields its `evaluate` reads (the
remaining fields are descriptive metadata). -/
structure DataRecipe where
  name : String
  required_conditions : List RecipeCondition
  optional_conditions : List RecipeCondition
  scoring_components : List ScoringComponent
  score_threshold : Int
  output_segment : String

/-- The dictionary returned by `DataRecipe.evaluate`; keys that only one
branch emits are `Option`-valued. -/
structure RecipeResult where
  «matches» : Bool
  score : Int
  threshold : Int
  reason : Option String
  required_conditions_met : Option Bool
  optional_conditions_met : Option Nat
  scoring_details : Option (List (String × Int))
  output_segment : Option String

/-- `all(cond.evaluate(data) for cond in cs)`: sequential, short-circuits
at the first `False`, propagates the first exception encountered. -/
def allConditions (cs : List RecipeCondition) (data : Dict) (now : Int) :
    Except String Bool :=
  match cs with
  | [] => .ok true
  | c :: rest => do
    let b ← c.evaluate data now
    if b then allConditions rest data now else .ok false

/-- `[cond for cond in cs if cond.evaluate(data)]`: evaluates every
condition, propagating exceptions. -/
def matchedConditions (cs : List RecipeCondition) (data : Dict) (now : Int) :
    Except String (List RecipeCondition) :=
  match cs with
  | [] => .ok []
  | c :: rest => do
    let b ← c.evaluate data now
    let tail ← matchedConditions rest data now
    if b then .ok (c :: tail) else .ok tail

/-- The scoring loop of `DataRecipe.evaluate`: accumulates the total and
the `scoring_details` entries of the components whose condition holds. -/
def scoreComponents (comps : List ScoringComponent) (data : Dict) (now : Int)
    (total : Int) (details : List (String × Int)) :
    Except String (Int × List (String × Int)) :=
  match comps with
  | [] => .ok (total, details)
  | comp :: rest => do
    let b ← comp.condition.evaluate data now
    if b then
      scoreComponents rest data now (total + comp.points)
        (details ++ [(comp.name, comp.points)])
    else scoreComponents rest data now total details

/-- `DataRecipe.evaluate`: required-conditions gate, then optional
conditions and scoring components. -/
def DataRecipe.evaluate (r : DataRecipe) (prospect_data : Dict) (now : Int) :
    Except String RecipeResult := do
  let required_met ← allConditions r.required_conditions prospect_data now
  if !required_met then
    return { «matches» := false, reason := some "Required conditions not met",
             score := 0, threshold := r.score_threshold,
             required_conditions_met := Option.none,
             optional_conditions_met := Option.none,
             scoring_details := Option.none, output_segment := Option.none }
  else do
    let optional_met ← matchedConditions r.optional_conditions prospect_data now
    let ts ← scoreComponents r.scoring_components prospect_data now 0 []
    let qualifies := decide (r.score_threshold ≤ ts.1)
    return { «matches» := qualifies, score := ts.1, threshold := r.score_threshold,
             reason := Option.none, required_conditions_met := some true,
             optional_conditions_met := some optional_met.length,
             scoring_details := some ts.2,
             output_segment := if qualifies then some r.output_segment else Option.none }

/-- `ScoreCategory` enum of `scoring.py`. -/
inductive ScoreCategory where
  | OBLIGATION_URGENCY | HIRING_SIGNAL | TECHNOLOGY_GAP
  | COMPANY_FIT | TIMING | ENGAGEMENT
deriving DecidableEq

/-- The `.value` string of each `ScoreCategory` member. -/
def ScoreCategory.value : ScoreCategory → String
  | .OBLIGATION_URGENCY => "obligation_urgency"
  | .HIRING_SIGNAL => "hiring_signal"
  | .TECHNOLOGY_GAP => "technology_gap"
  | .COMPANY_FIT => "company_fit"
  | .TIMING => "timing"
  | .ENGAGEMENT => "engagement"

/-- `ScoringRule` dataclass: guard predicate and scoring function are
caller-supplied callables; the float `weight` is modelled as a rational. -/
structure ScoringRule where
  name : String
  category : ScoreCategory
  description : String
  max_points : Int
  condition : Dict → Bool
  score_function : Dict → Int
  weight : Rat

/-- The dictionary returned by `ScoringRule.evaluate` (the `category` key
holds the enum member's `.value` string). -/
structure RuleResult where
  applies : Bool
  raw_score : Int
  weighted_score : Int
  rule_name : String
  category : String

/-- `ScoringRule.evaluate`: when the guard holds, the weighted score is
`int(raw_score * weight)` capped at `max_points`; otherwise zero.
`int()` truncates toward zero, so with `weight = num/den` in lowest terms
the weighted score is the t-division of `raw_score * num` by `den`. -/
def ScoringRule.evaluate (r : ScoringRule) (prospect_data : Dict) : RuleResult :=
  if r.condition prospect_data then
    let raw_score := r.score_function prospect_data
    let weighted_score := (raw_score * r.weight.num).tdiv (r.weight.den : Int)
    ⟨true, raw_score, min weighted_score r.max_points, r.name, r.category.value⟩
  else ⟨false, 0, 0, r.name, r.category.value⟩

/-- `ProspectScore` dataclass (`scored_at` timestamp not modelled). -/
structure ProspectScore where
  prospect_id : Value
  total_score : Int
  max_possible : Int
  category_scores : List (String × Int)
  rule_results : List RuleResult
  qualifies : Bool
  threshold_used : Int
  confidence : Rat

/-- `ProspectScorer` state: threshold and rule list (the category-weight
defaults only feed `create_rule`, which the properties below do not use). -/
structure ProspectScorer where
  threshold : Int
  rules : List ScoringRule

/-- `category_scores[cat] = category_scores.get(cat, 0) + score`. -/
def bumpCategory (m : List (String × Int)) (k : String) (v : Int) :
    List (String × Int) :=
  let old := (List.lookup k m).getD 0
  if m.any (fun p => p.1 == k) then
    m.map (fun p => if p.1 == k then (k, old + v) else p)
  else m ++ [(k, old + v)]

/-- The key fields of `_calculate_data_completeness`. -/
def key_fields : List String :=
  ["company_name", "employee_count", "industry", "tech_stack",
   "recent_job_postings", "funding_stage", "compliance_requirements"]

/-- `_calculate_data_completeness`: fraction of key fields that are
present (truthy) in the record. -/
def calculate_data_completeness (d : Dict) : Rat :=
  (((key_fields.filter (fun f => pyTruthy (dictGet d f))).length : Rat)) /
    ((key_fields.length : Rat))

/-- The rule loop of `score_prospect`: accumulates rule results, category
buckets, total score and maximum possible score, in declaration order. -/
def scoreLoop (d : Dict) (rules : List ScoringRule)
    (results : List RuleResult) (cats : List (String × Int))
    (total max_possible : Int) :
    List RuleResult × List (String × Int) × Int × Int :=
  match rules with
  | [] => (results, cats, total, max_possible)
  | r :: rest =>
    let result := r.evaluate d
    let max_possible := max_possible + r.max_points
    if result.applies then
      scoreLoop d rest (results ++ [result])
        (bumpCategory cats result.category result.weighted_score)
        (total + result.weighted_score) max_possible
    else
      scoreLoop d rest (results ++ [result]) cats total max_possible

/-- `ProspectScorer.score_prospect`. -/
def ProspectScorer.score_prospect (sc : ProspectScorer) (prospect_id : Value)
    (prospect_data : Dict) : ProspectScore :=
  let r := scoreLoop prospect_data sc.rules [] [] 0 0
  let total_score := r.2.2.1
  let max_possible := r.2.2.2
  let data_completeness := calculate_data_completeness prospect_data
  let confidence := data_completeness *
    (if 0 < max_possible then (total_score : Rat) / (max_possible : Rat) else 0)
  { prospect_id := prospect_id, total_score := total_score,
    max_possible := max_possible, category_scores := r.2.1,
    rule_results := r.1, qualifies := decide (sc.threshold ≤ total_score),
    threshold_used := sc.threshold, confidence := confidence }

/-- Insertion step of a stable sort by total score descending: an element
is placed after every already-placed element whose score is `≥` its own,
so earlier input elements precede later ones on ties. -/
def insertScoreDesc (s : ProspectScore) : List ProspectScore → List ProspectScore
  | [] => [s]
  | t :: ts =>
    if t.total_score ≤ s.total_score then s :: t :: ts
    else t :: insertScoreDesc s ts

/-- `scores.sort(key=lambda x: x.total_score, reverse=True)`: Python's
`list.sort` is a stable sort; any stable sort by the same key computes the
same list, so it is modelled by stable insertion sort. -/
def sortScoresDesc : List ProspectScore → List ProspectScore
  | [] => []
  | s :: ss => insertScoreDesc s (sortScoresDesc ss)

/-- The accumulation loop of `score_batch`: `i` is `len(scores)`, the
number of records already scored, used as the fallback id. -/
def scoreBatchAux (sc : ProspectScorer) (id_field : String) :
    List Dict → Nat → List ProspectScore
  | [], _ => []
  | p :: ps, i =>
    let prospect_id := (List.lookup id_field p).getD (.str (toString i))
    sc.score_prospect prospect_id p :: scoreBatchAux sc id_field ps (i + 1)

/-- `ProspectScorer.score_batch`: score every record, then sort by total
score descending (stable). -/
def ProspectScorer.score_batch (sc : ProspectScorer) (prospects : List Dict)
    (id_field : String) : List ProspectScore :=
  sortScoresDesc (scoreBatchAux sc id_field prospects 0)

/-- `ProspectScorer.get_qualified_prospects`: the sorted batch filtered by
the `qualifies` flag. -/
def ProspectScorer.get_qualified_prospects (sc : ProspectScorer)
    (prospects : List Dict) (id_field : String) : List ProspectScore :=
  (sc.score_batch prospects id_field).filter (fun s => s.qualifies)

/-- `EnrichmentStatus` enum of `enrichment.py`. -/
inductive EnrichmentStatus where
  | PENDING | IN_PROGRESS | COMPLETED | FAILED | SKIPPED
deriving DecidableEq

/-- `EnrichmentResult` (timestamps not modelled). -/
structure EnrichmentResult where
  step_name : String
  status : EnrichmentStatus
  data : Option Dict
  error : Option String

/-- `EnrichmentStep`: the fetch callable may raise, so it returns
`Except`. -/
structure EnrichmentStep where
  name : String
  source_name : String
  fields_to_fetch : List String
  fetch_function : Dict → Except String Dict
  required : Bool := false
  depends_on : List String := []
  timeout_seconds : Int := 30
  retry_count : Nat := 3
  enabled : Bool := true

/-- The retry loop of `EnrichmentStep.execute`: attempts remaining, last
error seen.  `while retries <= retry_count` makes `retry_count + 1`
attempts in total. -/
def executeAttempts (step : EnrichmentStep) (input : Dict) :
    Nat → Option String → EnrichmentResult
  | 0, last_error => ⟨step.name, .FAILED, Option.none, last_error⟩
  | n + 1, _ =>
    match step.fetch_function input with
    | .ok d => ⟨step.name, .COMPLETED, some d, Option.none⟩
    | .error e => executeAttempts step input n (some e)

/-- `EnrichmentStep.execute`: SKIPPED when disabled, otherwise the retry
loop. -/
def EnrichmentStep.execute (step : EnrichmentStep) (input : Dict) :
    EnrichmentResult :=
  if !step.enabled then ⟨step.name, .SKIPPED, Option.none, Option.none⟩
  else executeAttempts step input (step.retry_count + 1) Option.none

/-- `ProspectRecord` (timestamps not modelled). -/
structure ProspectRecord where
  prospect_id : String
  initial_data : Dict
  enriched_data : Dict := []
  enrichment_results : List EnrichmentResult := []

/-- `ProspectRecord.merge_enrichment`: append the result; merge its data
map when the step COMPLETED with a truthy (non-empty) map. -/
def ProspectRecord.merge_enrichment (rec : ProspectRecord)
    (result : EnrichmentResult) : ProspectRecord :=
  { rec with
    enrichment_results := rec.enrichment_results ++ [result],
    enriched_data :=
      match result.data with
      | some d =>
        if result.status = .COMPLETED ∧ d.isEmpty = false then
          dictUpdate rec.enriched_data d
        else rec.enriched_data
      | Option.none => rec.enriched_data }

/-- `ProspectRecord.all_data`: `{**initial_data, **enriched_data}`. -/
def ProspectRecord.all_data (rec : ProspectRecord) : Dict :=
  dictUpdate rec.initial_data rec.enriched_data

/-- `ProspectRecord.enrichment_complete`. -/
def ProspectRecord.enrichment_complete (rec : ProspectRecord) : Bool :=
  rec.enrichment_results.all
    (fun r => decide (r.status = .COMPLETED ∨ r.status = .SKIPPED))

/-- `EnrichmentPipeline` state. -/
structure EnrichmentPipeline where
  name : String := "default"
  steps : List EnrichmentStep := []
  step_order : List String := []

/-- `next((s for s in steps if s.name == step_name), None)`. -/
def findStep (steps : List EnrichmentStep) (n : String) : Option EnrichmentStep :=
  steps.find? (fun s => s.name == n)

/-- The recursive `visit` of `_recalculate_order`: depth-first, post-order
append, guarded by the visited set.  The Python recursion is bounded by
the visited-set guard; fuel `steps.length + 1` always suffices because
along any call chain every non-leaf call freshly marks a distinct step
name visited. -/
def visit (steps : List EnrichmentStep) :
    Nat → String → List String × List String → List String × List String
  | 0, _, st => st
  | fuel + 1, step_name, st =>
    if step_name ∈ st.1 then st
    else
      let st1 := (step_name :: st.1, st.2)
      match findStep steps step_name with
      | Option.none => st1
      | some step =>
        let st2 := step.depends_on.foldl (fun acc d => visit steps fuel d acc) st1
        (st2.1, st2.2 ++ [step_name])

/-- `_recalculate_order`: visit every step's name in declaration order and
return the accumulated post-order. -/
def recalculate_order (steps : List EnrichmentStep) : List String :=
  (steps.foldl (fun st s => visit steps (steps.length + 1) s.name st) ([], [])).2

/-- `EnrichmentPipeline.get_step`. -/
def EnrichmentPipeline.get_step (p : EnrichmentPipeline) (n : String) :
    Option EnrichmentStep :=
  findStep p.steps n

/-- `EnrichmentPipeline.add_step`: append the step and recompute the
order.  No validation of any kind is performed. -/
def EnrichmentPipeline.add_step (p : EnrichmentPipeline)
    (step : EnrichmentStep) : EnrichmentPipeline :=
  let steps := p.steps ++ [step]
  { p with steps := steps, step_order := recalculate_order steps }

/-- The dependency check of `enrich`: every named dependency has a
COMPLETED result in this run. -/
def depsMet (results : List EnrichmentResult) (deps : List String) : Bool :=
  deps.all (fun dep =>
    results.any (fun r => r.step_name == dep && decide (r.status = .COMPLETED)))

/-- The step loop of `enrich`: skip unknown names, record a SKIPPED result
on unmet dependencies, otherwise execute and merge; stop the whole run
when a required step FAILED. -/
def enrichLoop (pipe : EnrichmentPipeline) :
    List String → ProspectRecord → ProspectRecord
  | [], rec => rec
  | step_name :: rest, rec =>
    match pipe.get_step step_name with
    | Option.none => enrichLoop pipe rest rec
    | some step =>
      if !depsMet rec.enrichment_results step.depends_on then
        enrichLoop pipe rest
          { rec with enrichment_results := rec.enrichment_results ++
              [⟨step.name, .SKIPPED, Option.none, some "Dependencies not met"⟩] }
      else
        let result := step.execute rec.all_data
        let rec' := rec.merge_enrichment result
        if step.required = true ∧ result.status = .FAILED then rec'
        else enrichLoop pipe rest rec'

/-- `EnrichmentPipeline.enrich`. -/
def EnrichmentPipeline.enrich (pipe : EnrichmentPipeline)
    (prospect_id : String) (initial_data : Dict) : ProspectRecord :=
  enrichLoop pipe pipe.step_order
    { prospect_id := prospect_id, initial_data := initial_data }

/-! ### Concrete fixtures used by witnesses and counterexamples -/

/-- An EQUALS condition on a field absent from `c5data`. -/
def c5cond : RecipeCondition := ⟨"missing", .EQUALS, .int 1, Option.none⟩

/-- A record without the field `"missing"`. -/
def c5data : Dict := [("other", .int 2)]

/-- A GREATER_THAN condition whose comparison value is a (non-numeric)
string. -/
def c6cond : RecipeCondition := ⟨"x", .GREATER_THAN, .str "a", Option.none⟩

/-- A record whose `"x"` field is the (non-numeric) string `"b"`. -/
def c6data : Dict := [("x", .str "b")]

/-- A GREATER_THAN condition with an integer comparison value. -/
def c6intCond : RecipeCondition := ⟨"x", .GREATER_THAN, .int 3, Option.none⟩

/-- A record whose `"x"` field is a string, incomparable with an integer. -/
def c6strData : Dict := [("x", .str "abc")]

/-- A WITHIN_DAYS 5 condition on field `"t"`. -/
def c9cond : RecipeCondition := ⟨"t", .WITHIN_DAYS, .int 5, Option.none⟩

/-- A record whose `"t"` field is a timestamp at day 0. -/
def c9data : Dict := [("t", .date 0)]

/-- An EQUALS condition used to witness clock-independence. -/
def c9eqCond : RecipeCondition := ⟨"x", .EQUALS, .int 7, Option.none⟩

/-- A MATCHES_REGEX condition whose pattern the record value would match. -/
def c10cond : RecipeCondition := ⟨"x", .MATCHES_REGEX, .str "abc", Option.none⟩

/-- A record whose `"x"` field matches the pattern of `c10cond`. -/
def c10data : Dict := [("x", .str "abc")]

/-- A failing required condition for the C1 witness recipe. -/
def c1failCond : RecipeCondition := ⟨"emp", .GREATER_THAN, .int 50, Option.none⟩

/-- A scoring component that would trigger on the C1 witness record if it
were ever evaluated. -/
def c1comp : ScoringComponent :=
  ⟨"days_urgency", "", 75, 0, ⟨"days", .LESS_THAN, .int 60, Option.none⟩⟩

/-- Recipe whose required condition fails on `c1data` while its scoring
component would score 75 points. -/
def c1recipe : DataRecipe :=
  { name := "deadline", required_conditions := [c1failCond],
    optional_conditions := [⟨"days", .EXISTS, .none, Option.none⟩],
    scoring_components := [c1comp], score_threshold := 70,
    output_segment := "seg" }

/-- Record failing `c1failCond` (`emp = 10`) but triggering `c1comp`. -/
def c1data : Dict := [("days", .int 45), ("emp", .int 10)]

/-- A scoring rule declaring negative `max_points` whose guard never
applies. -/
def c2badRule : ScoringRule :=
  ⟨"bad", .TIMING, "", -1, fun _ => false, fun _ => 0, 1⟩

/-- Scorer containing only `c2badRule`. -/
def c2badScorer : ProspectScorer := ⟨70, [c2badRule]⟩

/-- An always-applying rule scoring 10 with `max_points` 10. -/
def c2rule1 : ScoringRule :=
  ⟨"size_fit", .COMPANY_FIT, "", 10, fun d => pyTruthy (dictGet d "size_fit"),
    fun _ => 10, 1⟩

/-- A rule whose raw score 20 exceeds its `max_points` 15. -/
def c2rule2 : ScoringRule :=
  ⟨"hiring", .HIRING_SIGNAL, "", 15, fun d => pyTruthy (dictGet d "jobs"),
    fun _ => 20, 1⟩

/-- Scorer over `c2rule1` and `c2rule2` with threshold 20. -/
def c2scorer : ProspectScorer := ⟨20, [c2rule1, c2rule2]⟩

/-- Record triggering both rules of `c2scorer`. -/
def c2data : Dict := [("size_fit", .bool true), ("jobs", .int 3)]

/-- Scenario C step A: no dependencies, fetch succeeds. -/
def c4stepA : EnrichmentStep :=
  { name := "A", source_name := "src", fields_to_fetch := [],
    fetch_function := fun _ => .ok [("a", .int 1)] }

/-- Scenario C step B: required, depends on A, fetch always raises. -/
def c4stepB : EnrichmentStep :=
  { name := "B", source_name := "src", fields_to_fetch := [],
    fetch_function := fun _ => .error "boom", required := true,
    depends_on := ["A"] }

/-- Scenario C step C: depends on B. -/
def c4stepC : EnrichmentStep :=
  { name := "C", source_name := "src", fields_to_fetch := [],
    fetch_function := fun _ => .ok [("c", .int 3)], depends_on := ["B"] }

/-- Scenario C pipeline: A, then required B, then C. -/
def c4pipe : EnrichmentPipeline :=
  (((EnrichmentPipeline.mk "p" [] []).add_step c4stepA).add_step
    c4stepB).add_step c4stepC

/-- Result of step A in scenario C. -/
def c4resA : EnrichmentResult := ⟨"A", .COMPLETED, some [("a", .int 1)], Option.none⟩

/-- Result of step B in scenario C: FAILED after retries exhaust. -/
def c4resB : EnrichmentResult := ⟨"B", .FAILED, Option.none, some "boom"⟩

/-- The empty pipeline used by the C7 fixtures. -/
def c7pipe0 : EnrichmentPipeline := EnrichmentPipeline.mk "default" [] []

/-- A step whose dependency list names a step that exists nowhere. -/
def c7ghostStep : EnrichmentStep :=
  { name := "G", source_name := "src", fields_to_fetch := [],
    fetch_function := fun _ => .ok [("g", .int 1)], depends_on := ["ghost"] }

/-- The SKIPPED result recorded for `c7ghostStep` at enrichment time. -/
def c7skipRes : EnrichmentResult :=
  ⟨"G", .SKIPPED, Option.none, some "Dependencies not met"⟩

/-- A result marking a fatal failure: FAILED status on a step that the
pipeline resolves (by name) to a required step. -/
def requiredFailure (pipe : EnrichmentPipeline) (r : EnrichmentResult) : Prop :=
  r.status = .FAILED ∧
    ∃ s, pipe.get_step r.step_name = some s ∧ s.required = true

/-- Topological-order correctness statement for an order list: whenever
the order splits at a name that resolves to a step, every dependency of
that step that itself resolves to a step already occurs in the prefix. -/
def DepsDone (steps : List EnrichmentStep) (order : List String) : Prop :=
  ∀ l1 n l2, order = l1 ++ n :: l2 → ∀ s, findStep steps n = some s →
    ∀ d ∈ s.depends_on, (findStep steps d).isSome → d ∈ l1

/-- Invariant of the depth-first `visit` recursion.  `st.1` is the
visited set, `st.2` the accumulated post-order, and `G` the grey names
(visited, their deps still being processed, not yet appended): the order
is within the visited set, grey names are visited but not yet ordered,
every visited name is ordered, grey, or resolves to no step, the order
has no duplicates, and `DepsDone` holds of it. -/
def TopoInv (steps : List EnrichmentStep) (G : List String)
    (st : List String × List String) : Prop :=
  (∀ a ∈ st.2, a ∈ st.1) ∧
  (∀ g ∈ G, g ∈ st.1) ∧
  (∀ a ∈ st.1, a ∈ st.2 ∨ a ∈ G ∨ findStep steps a = Option.none) ∧
  st.2.Nodup ∧
  (∀ g ∈ G, g ∉ st.2) ∧
  DepsDone steps st.2

/-- Cycle fixture: step A depends on B and on the nonexistent "ghost". -/
def c3cycA : EnrichmentStep :=
  { name := "A", source_name := "src", fields_to_fetch := [],
    fetch_function := fun _ => .ok [], depends_on := ["B", "ghost"] }

/-- Cycle fixture: step B depends back on A. -/
def c3cycB : EnrichmentStep :=
  { name := "B", source_name := "src", fields_to_fetch := [],
    fetch_function := fun _ => .ok [], depends_on := ["A"] }

/-- Acyclic chain fixture: A with no dependencies. -/
def c3stepA : EnrichmentStep :=
  { name := "A", source_name := "src", fields_to_fetch := [],
    fetch_function := fun _ => .ok [] }

/-- Acyclic chain fixture: B depends on A. -/
def c3stepB : EnrichmentStep :=
  { name := "B", source_name := "src", fields_to_fetch := [],
    fetch_function := fun _ => .ok [], depends_on := ["A"] }

/-- Acyclic chain fixture: C depends on B. -/
def c3stepC : EnrichmentStep :=
  { name := "C", source_name := "src", fields_to_fetch := [],
    fetch_function := fun _ => .ok [], depends_on := ["B"] }

/-- A height function witnessing that the A-B-C chain is acyclic. -/
def c3rank (n : String) : Nat :=
  if n = "A" then 0 else if n = "B" then 1 else 2

/-! ### Theorems -/

/-- What one rule adds to the total score: its capped weighted score when
its guard applies, nothing otherwise. -/
def ruleContribution (d : Dict) (r : ScoringRule) : Int :=
  if (r.evaluate d).applies then (r.evaluate d).weighted_score else 0

/-- Do-notation reduction for `Except`: binding a success. -/
theorem except_ok_bind {ε α β : Type} (a : α) (f : α → Except ε β) :
    (Except.ok a >>= f : Except ε β) = f a := rfl

/-- Do-notation reduction for `Except`: `pure` is `ok`. -/
theorem except_pure_eq_ok {ε α : Type} (a : α) :
    (pure a : Except ε α) = Except.ok a := rfl

/-- `all(...)` over the required conditions computes `False` whenever
every condition evaluates without an exception and at least one of them
evaluates to `False`. -/
theorem allConditions_eq_false (cs : List RecipeCondition) (data : Dict)
    (now : Int) (hall : ∀ c ∈ cs, ∃ b, c.evaluate data now = .ok b)
    (hex : ∃ c ∈ cs, c.evaluate data now = .ok false) :
    allConditions cs data now = .ok false := by
  induction cs with
  | nil => simp at hex
  | cons c rest ih =>
    obtain ⟨b, hb⟩ := hall c (List.mem_cons_self c rest)
    cases b with
    | false => simp [allConditions, hb, except_ok_bind]
    | true =>
      obtain ⟨c', hc', hfalse⟩ := hex
      rcases List.mem_cons.mp hc' with h | h
      · subst h; rw [hb] at hfalse; simp at hfalse
      · have := ih (fun x hx => hall x (List.mem_cons_of_mem _ hx)) ⟨c', h, hfalse⟩
        simp [allConditions, hb, this, except_ok_bind]

/-- The interpretation each comparison operator puts on an `Ordering`
(how the source turns `>`, `<`, `>=`, `<=` into a boolean). -/
def cmpOpHolds (op : ConditionOperator) (o : Ordering) : Bool :=
  match op with
  | .GREATER_THAN => o = Ordering.gt
  | .LESS_THAN => o = Ordering.lt
  | .GREATER_OR_EQUAL => !(o = Ordering.lt)
  | .LESS_OR_EQUAL => !(o = Ordering.gt)
  | _ => false

/-- Claim C5: for every condition whose operator is neither EXISTS nor
NOT_EXISTS, a record in which the condition's field is absent or bound to
a null-like value makes `RecipeCondition.evaluate` return `false` without
raising. -/
theorem condition_missing_field_evaluates_false (c : RecipeCondition)
    (data : Dict) (now : Int) (h1 : c.operator ≠ .EXISTS)
    (h2 : c.operator ≠ .NOT_EXISTS) (hmiss : dictGet data c.field = .none) :
    c.evaluate data now = .ok false := by
  simp [RecipeCondition.evaluate, hmiss, h1, h2, Value.isNone]

/-- Witness for C5 at a concrete condition and record. -/
theorem condition_missing_field_evaluates_false_witness :
    c5cond.evaluate c5data 0 = .ok false :=
  condition_missing_field_evaluates_false c5cond c5data 0
    (by decide) (by decide) rfl

/-- Claim C10: a MATCHES_REGEX condition always evaluates to `false`
(the operator has no handling branch and falls through to the final
`return False`), even when the field value matches the pattern. -/
theorem matches_regex_condition_never_holds (c : RecipeCondition)
    (data : Dict) (now : Int) (h : c.operator = .MATCHES_REGEX) :
    c.evaluate data now = .ok false := by
  simp [RecipeCondition.evaluate, h]

/-- Witness for C10: the field value literally matches the pattern, yet
the condition evaluates to `false`. -/
theorem matches_regex_condition_never_holds_witness :
    c10cond.evaluate c10data 0 = .ok false :=
  matches_regex_condition_never_holds c10cond c10data 0 rfl

/-- Counterexample to C9 as stated: a WITHIN_DAYS condition evaluated on
the same condition and the same record yields different results at
different clock times (`datetime.now()` is read inside `evaluate`), so
the result is not independent of when the evaluation runs. -/
theorem condition_evaluation_depends_on_clock :
    c9cond.evaluate c9data 5 = .ok true ∧ c9cond.evaluate c9data 6 = .ok false :=
  ⟨rfl, rfl⟩

/-- Claim C9 (amended): condition evaluation is a deterministic function
of the condition, the record, and the current clock time; for every
operator other than WITHIN_DAYS the result is independent of the clock. -/
theorem condition_evaluation_clock_independent (c : RecipeCondition)
    (data : Dict) (h : c.operator ≠ .WITHIN_DAYS) (now1 now2 : Int) :
    c.evaluate data now1 = c.evaluate data now2 := by
  obtain ⟨f, op, v, src⟩ := c
  cases op <;> first
    | rfl
    | exact absurd rfl h

/-- Witness for amended C9 at a concrete EQUALS condition and two
distant clock times. -/
theorem condition_evaluation_clock_independent_witness :
    c9eqCond.evaluate [("x", .int 7)] 0 = c9eqCond.evaluate [("x", .int 7)] 100 :=
  condition_evaluation_clock_independent c9eqCond [("x", .int 7)] (by decide) 0 100

/-- Counterexample to C6 as stated: with both sides non-numeric strings
the comparison returns `true` (Python string ordering), not `false`; and
with a string against a number it raises `TypeError` instead of returning
`false`. -/
theorem comparison_non_numeric_does_not_fail_closed :
    c6cond.evaluate c6data 0 = .ok true ∧
    ∃ m, c6intCond.evaluate c6strData 0 = .error m :=
  ⟨rfl, _, rfl⟩

/-- Claim C6 (amended): the four ordering operators use Python comparison
semantics — numbers compare numerically, strings lexicographically, and a
string against a number raises `TypeError` (propagated as an exception,
not absorbed into `false`). -/
theorem comparison_ops_python_semantics (c : RecipeCondition) (data : Dict)
    (now : Int)
    (hop : c.operator = .GREATER_THAN ∨ c.operator = .LESS_THAN ∨
      c.operator = .GREATER_OR_EQUAL ∨ c.operator = .LESS_OR_EQUAL) :
    (∀ a b, dictGet data c.field = .int a → c.value = .int b →
      c.evaluate data now = .ok (cmpOpHolds c.operator (compare a b))) ∧
    (∀ s t, dictGet data c.field = .str s → c.value = .str t →
      c.evaluate data now = .ok (cmpOpHolds c.operator (strCmp s t))) ∧
    (∀ s b, dictGet data c.field = .str s → c.value = .int b →
      ∃ m, c.evaluate data now = .error m) ∧
    (∀ a t, dictGet data c.field = .int a → c.value = .str t →
      ∃ m, c.evaluate data now = .error m) := by
  refine ⟨?_, ?_, ?_, ?_⟩ <;> intro x y hf hv <;>
    rcases hop with h | h | h | h <;>
      simp [RecipeCondition.evaluate, h, hf, hv, Value.isNone, pyCompare,
        Value.toNum?, cmpOpHolds, Except.map]

/-- Witness for amended C6: a concrete numeric strictly-greater-than
comparison. -/
theorem comparison_ops_python_semantics_witness :
    c6intCond.evaluate [("x", .int 5)] 0 = .ok true :=
  (comparison_ops_python_semantics c6intCond [("x", .int 5)] 0
    (Or.inl rfl)).1 5 3 rfl rfl

/-- Claim C1: when the required-conditions check of a recipe computes
`False` (some required condition evaluates to `False`, the earlier ones
to `True`), `DataRecipe.evaluate` returns `matches = False` and
`score = 0` with the fixed short-circuit result, and the result is
entirely independent of the recipe's scoring components and optional
conditions — none of them is evaluated. -/
theorem recipe_required_failure_short_circuits (r : DataRecipe) (data : Dict)
    (now : Int) (hall : ∀ c ∈ r.required_conditions, ∃ b, c.evaluate data now = .ok b)
    (hex : ∃ c ∈ r.required_conditions, c.evaluate data now = .ok false) :
    r.evaluate data now = .ok
      { «matches» := false, score := 0, threshold := r.score_threshold,
        reason := some "Required conditions not met",
        required_conditions_met := Option.none,
        optional_conditions_met := Option.none,
        scoring_details := Option.none, output_segment := Option.none } ∧
    ∀ sc oc,
      (DataRecipe.mk r.name r.required_conditions oc sc r.score_threshold
        r.output_segment).evaluate data now = r.evaluate data now := by
  have h := allConditions_eq_false r.required_conditions data now hall hex
  constructor
  · simp [DataRecipe.evaluate, h, except_ok_bind, except_pure_eq_ok]
  · intro sc oc
    simp [DataRecipe.evaluate, h, except_ok_bind, except_pure_eq_ok]

/-- Witness for C1: a concrete recipe whose required condition fails on a
record that would otherwise score 75 ≥ threshold 70; the scoring
components are ignored and may be replaced arbitrarily. -/
theorem recipe_required_failure_short_circuits_witness :
    c1recipe.evaluate c1data 0 = .ok
      { «matches» := false, score := 0, threshold := 70,
        reason := some "Required conditions not met",
        required_conditions_met := Option.none,
        optional_conditions_met := Option.none,
        scoring_details := Option.none, output_segment := Option.none } ∧
    (DataRecipe.mk c1recipe.name c1recipe.required_conditions [] []
      c1recipe.score_threshold c1recipe.output_segment).evaluate c1data 0 =
      c1recipe.evaluate c1data 0 := by
  have hall : ∀ c ∈ c1recipe.required_conditions,
      ∃ b, c.evaluate c1data 0 = .ok b := by
    intro c hc
    rcases List.mem_singleton.mp hc with h
    subst h
    exact ⟨false, rfl⟩
  have hex : ∃ c ∈ c1recipe.required_conditions,
      c.evaluate c1data 0 = .ok false :=
    ⟨c1failCond, List.mem_singleton.mpr rfl, rfl⟩
  exact ⟨(recipe_required_failure_short_circuits c1recipe c1data 0 hall hex).1,
    (recipe_required_failure_short_circuits c1recipe c1data 0 hall hex).2 [] []⟩

/-- Unfolded characterization of the `score_prospect` rule loop: the rule
results are the evaluations in declaration order, the total is the sum of
the contributions, and the maximum possible is the sum of all declared
`max_points`, applied or not. -/
theorem scoreLoop_spec (d : Dict) (rules : List ScoringRule) :
    ∀ results cats total max_possible,
      (scoreLoop d rules results cats total max_possible).1 =
        results ++ rules.map (fun r => r.evaluate d) ∧
      (scoreLoop d rules results cats total max_possible).2.2.1 =
        total + (rules.map (ruleContribution d)).sum ∧
      (scoreLoop d rules results cats total max_possible).2.2.2 =
        max_possible + (rules.map (fun r => r.max_points)).sum := by
  induction rules with
  | nil => intro results cats total max_possible; simp [scoreLoop]
  | cons r rest ih =>
    intro results cats total max_possible
    by_cases h : (r.evaluate d).applies = true
    · have := ih (results ++ [r.evaluate d])
        (bumpCategory cats (r.evaluate d).category (r.evaluate d).weighted_score)
        (total + (r.evaluate d).weighted_score) (max_possible + r.max_points)
      refine ⟨?_, ?_, ?_⟩ <;>
        simp [scoreLoop, h, this.1, this.2.1, this.2.2, ruleContribution] <;>
        ring
    · have := ih (results ++ [r.evaluate d]) cats total (max_possible + r.max_points)
      refine ⟨?_, ?_, ?_⟩ <;>
        (simp [scoreLoop, h, this.1, this.2.1, this.2.2, ruleContribution];
          try ring)

/-- A single rule's contribution is at most its declared `max_points`,
provided `max_points` is non-negative (the guard-does-not-apply case
contributes 0). -/
theorem ruleContribution_le (d : Dict) (r : ScoringRule)
    (hmax : 0 ≤ r.max_points) : ruleContribution d r ≤ r.max_points := by
  unfold ruleContribution ScoringRule.evaluate
  by_cases h : r.condition d = true <;> simp [h, hmax]

/-- Counterexample to C2 as stated: a scorer with one rule declaring
`max_points = -1` whose guard does not apply yields `total_score = 0`
and `max_possible = -1`, so `total_score ≤ max_possible` fails (and the
non-applying rule's contribution 0 exceeds its declared `max_points`). -/
theorem scorer_total_can_exceed_max_possible :
    (c2badScorer.score_prospect (.str "p") []).total_score = 0 ∧
    (c2badScorer.score_prospect (.str "p") []).max_possible = -1 ∧
    ¬((c2badScorer.score_prospect (.str "p") []).total_score ≤
      (c2badScorer.score_prospect (.str "p") []).max_possible) :=
  ⟨rfl, rfl, by decide⟩

/-- Claim C2 (amended): for every scorer whose rules all declare
non-negative `max_points`, `max_possible` equals the sum of every rule's
`max_points` whether or not its guard applied, `total_score` never
exceeds `max_possible`, and (pairing each recorded rule result with its
rule) each rule's weighted contribution is at most its declared
`max_points`. -/
theorem score_prospect_bounds (sc : ProspectScorer) (pid : Value) (d : Dict)
    (hmax : ∀ r ∈ sc.rules, 0 ≤ r.max_points) :
    (sc.score_prospect pid d).max_possible =
      (sc.rules.map (fun r => r.max_points)).sum ∧
    (sc.score_prospect pid d).total_score ≤ (sc.score_prospect pid d).max_possible ∧
    List.Forall₂ (fun (res : RuleResult) (r : ScoringRule) =>
        res.weighted_score ≤ r.max_points)
      (sc.score_prospect pid d).rule_results sc.rules := by
  have hspec := scoreLoop_spec d sc.rules [] [] 0 0
  have htot : (sc.score_prospect pid d).total_score =
      (sc.rules.map (ruleContribution d)).sum := by
    simpa [ProspectScorer.score_prospect] using hspec.2.1
  have hmaxp : (sc.score_prospect pid d).max_possible =
      (sc.rules.map (fun r => r.max_points)).sum := by
    simpa [ProspectScorer.score_prospect] using hspec.2.2
  have hres : (sc.score_prospect pid d).rule_results =
      sc.rules.map (fun r => r.evaluate d) := by
    simpa [ProspectScorer.score_prospect] using hspec.1
  refine ⟨hmaxp, ?_, ?_⟩
  · rw [htot, hmaxp]
    exact List.sum_le_sum (fun r hr => ruleContribution_le d r (hmax r hr))
  · rw [hres]
    rw [List.forall₂_map_left_iff]
    rw [List.forall₂_same]
    intro r hr
    have h0 := hmax r hr
    unfold ScoringRule.evaluate
    by_cases h : r.condition d = true <;> simp [h, h0]

/-- Witness for amended C2: a two-rule scorer where one raw score is
capped (raw 20, `max_points` 15); total 25 = max possible 25. -/
theorem score_prospect_bounds_witness :
    (c2scorer.score_prospect (.str "p") c2data).max_possible =
      (c2scorer.rules.map (fun r => r.max_points)).sum ∧
    (c2scorer.score_prospect (.str "p") c2data).total_score ≤
      (c2scorer.score_prospect (.str "p") c2data).max_possible ∧
    List.Forall₂ (fun (res : RuleResult) (r : ScoringRule) =>
        res.weighted_score ≤ r.max_points)
      (c2scorer.score_prospect (.str "p") c2data).rule_results c2scorer.rules :=
  score_prospect_bounds c2scorer (.str "p") c2data (by
    intro r hr
    rcases List.mem_cons.mp hr with h | h
    · subst h; decide
    · rcases List.mem_singleton.mp h with h2
      subst h2; decide)

/-- Inserting into the stable descending sort permutes consing. -/
theorem insertScoreDesc_perm (s : ProspectScore) (l : List ProspectScore) :
    List.Perm (insertScoreDesc s l) (s :: l) := by
  induction l with
  | nil => simp [insertScoreDesc]
  | cons t ts ih =>
    by_cases h : t.total_score ≤ s.total_score
    · simp [insertScoreDesc, h]
    · simp only [insertScoreDesc, if_neg h]
      exact (ih.cons t).trans (List.Perm.swap s t ts)

/-- The stable descending sort permutes its input. -/
theorem sortScoresDesc_perm (l : List ProspectScore) : List.Perm (sortScoresDesc l) l := by
  induction l with
  | nil => simp [sortScoresDesc]
  | cons s ss ih =>
    exact (insertScoreDesc_perm s (sortScoresDesc ss)).trans (ih.cons s)

/-- Insertion preserves descending order by total score. -/
theorem insertScoreDesc_pairwise (s : ProspectScore) (l : List ProspectScore)
    (h : l.Pairwise (fun a b => b.total_score ≤ a.total_score)) :
    (insertScoreDesc s l).Pairwise (fun a b => b.total_score ≤ a.total_score) := by
  induction l with
  | nil => simp [insertScoreDesc]
  | cons t ts ih =>
    rcases List.pairwise_cons.mp h with ⟨ht, hts⟩
    by_cases hc : t.total_score ≤ s.total_score
    · rw [insertScoreDesc, if_pos hc]
      refine List.pairwise_cons.mpr ⟨?_, h⟩
      intro x hx
      rcases List.mem_cons.mp hx with hx | hx
      · exact hx ▸ hc
      · exact le_trans (ht x hx) hc
    · rw [insertScoreDesc, if_neg hc]
      refine List.pairwise_cons.mpr ⟨?_, ih hts⟩
      intro x hx
      rcases List.mem_cons.mp ((insertScoreDesc_perm s ts).mem_iff.mp hx) with hx | hx
      · exact hx ▸ le_of_lt (lt_of_not_le hc)
      · exact ht x hx

/-- The batch sort is descending by total score. -/
theorem sortScoresDesc_pairwise (l : List ProspectScore) :
    (sortScoresDesc l).Pairwise (fun a b => b.total_score ≤ a.total_score) := by
  induction l with
  | nil => simp [sortScoresDesc]
  | cons s ss ih => exact insertScoreDesc_pairwise s (sortScoresDesc ss) ih

/-- Stability of insertion, phrased per score value: restricting to any
one total score, insertion puts the new element first and disturbs
nothing (elements with strictly greater scores are passed over, ties are
never crossed). -/
theorem filter_insertScoreDesc (s : ProspectScore) (l : List ProspectScore)
    (v : Int) :
    (insertScoreDesc s l).filter (fun t => t.total_score == v) =
      if s.total_score == v then
        s :: l.filter (fun t => t.total_score == v)
      else l.filter (fun t => t.total_score == v) := by
  induction l with
  | nil => by_cases h : s.total_score == v <;> simp [insertScoreDesc, h]
  | cons t ts ih =>
    by_cases hc : t.total_score ≤ s.total_score
    · rw [insertScoreDesc, if_pos hc]
      by_cases h : s.total_score == v <;> simp [List.filter_cons, h]
    · rw [insertScoreDesc, if_neg hc]
      rw [List.filter_cons, List.filter_cons, ih]
      by_cases h : s.total_score == v
      · have hv : s.total_score = v := by simpa using h
        have ht : (t.total_score == v) = false := by
          have : ¬t.total_score = v := by
            intro he
            exact hc (le_of_eq (he.trans hv.symm))
          simpa using this
        simp [h, ht]
      · simp [h]

/-- Stability of the batch sort: for every total score value, the
subsequence of results carrying that score is exactly the subsequence of
the unsorted per-record scores carrying it — ties keep input order. -/
theorem filter_sortScoresDesc (l : List ProspectScore) (v : Int) :
    (sortScoresDesc l).filter (fun t => t.total_score == v) =
      l.filter (fun t => t.total_score == v) := by
  induction l with
  | nil => rfl
  | cons s ss ih =>
    rw [sortScoresDesc, filter_insertScoreDesc, List.filter_cons]
    by_cases h : s.total_score == v <;> simp [h, ih]

/-- Every score produced by the accumulation loop of `score_batch` comes
from `score_prospect` on one of the input records. -/
theorem mem_scoreBatchAux (sc : ProspectScorer) (id_field : String) :
    ∀ (ps : List Dict) (i : Nat) (s : ProspectScore),
      s ∈ scoreBatchAux sc id_field ps i →
      ∃ pid p, p ∈ ps ∧ s = sc.score_prospect pid p := by
  intro ps
  induction ps with
  | nil => intro i s h; simp [scoreBatchAux] at h
  | cons p rest ih =>
    intro i s h
    rw [scoreBatchAux] at h
    rcases List.mem_cons.mp h with h | h
    · exact ⟨(List.lookup id_field p).getD (.str (toString i)), p,
        List.mem_cons_self p rest, h⟩
    · obtain ⟨pid, q, hq, he⟩ := ih (i + 1) s h
      exact ⟨pid, q, List.mem_cons_of_mem p hq, he⟩

/-- The loop scores one record per input, in order. -/
theorem scoreBatchAux_length (sc : ProspectScorer) (id_field : String) :
    ∀ (ps : List Dict) (i : Nat), (scoreBatchAux sc id_field ps i).length = ps.length := by
  intro ps
  induction ps with
  | nil => intro i; rfl
  | cons p rest ih => intro i; simp [scoreBatchAux, ih]

/-- Claim C8: `score_batch` returns one `ProspectScore` per input record
(a permutation of the per-record scores, of the same length), sorted by
`total_score` descending with ties kept in input order (the subsequence
at each score value is unchanged), each result's `qualifies` flag is
exactly `total_score ≥ threshold`, and `get_qualified_prospects` is
exactly the sorted batch filtered by that flag (hence in the same
descending order). -/
theorem score_batch_sorted_stable_qualified (sc : ProspectScorer)
    (prospects : List Dict) (id_field : String) :
    List.Perm (sc.score_batch prospects id_field) (scoreBatchAux sc id_field prospects 0) ∧
    (sc.score_batch prospects id_field).length = prospects.length ∧
    (sc.score_batch prospects id_field).Pairwise
      (fun a b => b.total_score ≤ a.total_score) ∧
    (∀ v : Int, (sc.score_batch prospects id_field).filter
        (fun s => s.total_score == v) =
      (scoreBatchAux sc id_field prospects 0).filter
        (fun s => s.total_score == v)) ∧
    (∀ s ∈ sc.score_batch prospects id_field,
      s.qualifies = decide (sc.threshold ≤ s.total_score)) ∧
    sc.get_qualified_prospects prospects id_field =
      (sc.score_batch prospects id_field).filter (fun s => s.qualifies) := by
  refine ⟨sortScoresDesc_perm _, ?_, sortScoresDesc_pairwise _, ?_, ?_, rfl⟩
  · rw [ProspectScorer.score_batch, (sortScoresDesc_perm _).length_eq,
      scoreBatchAux_length]
  · intro v; exact filter_sortScoresDesc _ v
  · intro s hs
    have hmem := (sortScoresDesc_perm _).mem_iff.mp hs
    obtain ⟨pid, p, _, he⟩ := mem_scoreBatchAux sc id_field prospects 0 s hmem
    subst he
    rfl

/-- A step found by name lookup carries that name. -/
theorem get_step_name (pipe : EnrichmentPipeline) (n : String)
    (step : EnrichmentStep) (h : pipe.get_step n = some step) :
    step.name = n := by
  unfold EnrichmentPipeline.get_step findStep at h
  have hp := List.find?_some h
  have hp2 : (step.name == n) = true := hp
  exact eq_of_beq hp2

/-- Looking a found step up again by its own name finds it again. -/
theorem get_step_self (pipe : EnrichmentPipeline) (n : String)
    (step : EnrichmentStep) (h : pipe.get_step n = some step) :
    pipe.get_step step.name = some step := by
  rw [get_step_name pipe n step h]; exact h

/-- Splitting a list extended by one element: the distinguished middle
element is either the appended one (and nothing follows it) or lies in
the original list. -/
theorem append_singleton_eq_split {α : Type} (l l1 l2 : List α) (m x : α)
    (h : l ++ [x] = l1 ++ m :: l2) :
    (l1 = l ∧ m = x ∧ l2 = []) ∨
      ∃ l2p, l = l1 ++ m :: l2p ∧ l2 = l2p ++ [x] := by
  rcases List.eq_nil_or_concat l2 with h2 | ⟨l2p, y, h2⟩
  · subst h2
    have h' := List.append_inj' h rfl
    have hx : x = m := by simpa using h'.2
    exact Or.inl ⟨h'.1.symm, hx.symm, rfl⟩
  · rw [List.concat_eq_append] at h2
    subst h2
    have hr : l1 ++ m :: (l2p ++ [y]) = (l1 ++ m :: l2p) ++ [y] := by simp
    rw [hr] at h
    have h' := List.append_inj' h rfl
    have hx : x = y := by simpa using h'.2
    exact Or.inr ⟨l2p, h'.1, by rw [hx]⟩

/-- Every attempt of the retry loop reports the step's own name. -/
theorem executeAttempts_step_name (step : EnrichmentStep) (input : Dict) :
    ∀ fuel last, (executeAttempts step input fuel last).step_name = step.name := by
  intro fuel
  induction fuel with
  | zero => intro last; rfl
  | succ n ih =>
    intro last
    rw [executeAttempts]
    cases step.fetch_function input with
    | ok d => rfl
    | error e => exact ih (some e)

/-- `execute` reports the step's own name. -/
theorem execute_step_name (step : EnrichmentStep) (input : Dict) :
    (step.execute input).step_name = step.name := by
  rw [EnrichmentStep.execute]
  by_cases h : step.enabled = true <;> simp [h, executeAttempts_step_name]

/-- Invariant of the `enrich` step loop: if no already-recorded result is
a fatal required-step failure, then in the final result list a fatal
required-step failure can only sit at the very end — the loop `break`s
immediately after recording it, so no later step is attempted. -/
theorem enrichLoop_requiredFailure_last (pipe : EnrichmentPipeline) :
    ∀ (names : List String) (rec : ProspectRecord),
      (∀ r ∈ rec.enrichment_results, ¬requiredFailure pipe r) →
      ∀ l1 r l2,
        (enrichLoop pipe names rec).enrichment_results = l1 ++ r :: l2 →
        requiredFailure pipe r → l2 = [] := by
  intro names
  induction names with
  | nil =>
    intro rec hinv l1 r l2 he hbad
    rw [enrichLoop] at he
    exact absurd hbad (hinv r (he ▸ List.mem_append.mpr
      (Or.inr (List.mem_cons_self r l2))))
  | cons n rest ih =>
    intro rec hinv l1 r l2 he hbad
    rw [enrichLoop] at he
    cases hg : pipe.get_step n with
    | none =>
      rw [hg] at he
      exact ih rec hinv l1 r l2 he hbad
    | some step =>
      rw [hg] at he
      by_cases hd : depsMet rec.enrichment_results step.depends_on = true
      · simp only [hd, Bool.not_true, Bool.false_eq_true, if_false] at he
        by_cases hrf : step.required = true ∧
            (step.execute rec.all_data).status = .FAILED
        · rw [if_pos hrf] at he
          have hme : (rec.merge_enrichment
              (step.execute rec.all_data)).enrichment_results =
              rec.enrichment_results ++ [step.execute rec.all_data] := rfl
          rw [hme] at he
          have hsplit := append_singleton_eq_split rec.enrichment_results
            l1 l2 r (step.execute rec.all_data) he
          rcases hsplit with ⟨_, _, h2⟩ | ⟨l2p, hl, _⟩
          · exact h2
          · exact absurd hbad (hinv r (hl ▸ List.mem_append.mpr
              (Or.inr (List.mem_cons_self r l2p))))
        · rw [if_neg hrf] at he
          refine ih (rec.merge_enrichment (step.execute rec.all_data)) ?_ l1 r l2 he hbad
          intro q hq
          rcases List.mem_append.mp hq with hq | hq
          · exact hinv q hq
          · have hq2 : q = step.execute rec.all_data := List.mem_singleton.mp hq
            subst hq2
            intro ⟨hfail, s, hs, hsreq⟩
            rw [execute_step_name step rec.all_data] at hs
            rw [get_step_self pipe n step hg] at hs
            have h2 : step = s := by injection hs
            subst h2
            exact hrf ⟨hsreq, hfail⟩
      · rw [Bool.not_eq_true] at hd
        simp only [hd, Bool.not_false, if_true] at he
        refine ih _ ?_ l1 r l2 he hbad
        intro q hq
        rcases List.mem_append.mp hq with hq | hq
        · exact hinv q hq
        · have hq2 := List.mem_singleton.mp hq
          subst hq2
          intro ⟨hfail, _⟩
          simp at hfail

/-- Claim C4: if the enrichment run records a FAILED result for a step
the pipeline resolves to a required step, then that result is the last
one recorded — no later step in the execution order is attempted, and
`enrich` returns (it is a total function, raising no exception) the
partial record whose results are exactly those accumulated up to and
including the failed step. -/
theorem enrich_required_failure_halts (pipe : EnrichmentPipeline)
    (prospect_id : String) (initial_data : Dict)
    (l1 : List EnrichmentResult) (r : EnrichmentResult)
    (l2 : List EnrichmentResult)
    (he : (pipe.enrich prospect_id initial_data).enrichment_results =
      l1 ++ r :: l2)
    (hfail : r.status = .FAILED)
    (hreq : ∃ s, pipe.get_step r.step_name = some s ∧ s.required = true) :
    l2 = [] :=
  enrichLoop_requiredFailure_last pipe pipe.step_order
    { prospect_id := prospect_id, initial_data := initial_data }
    (by intro q hq; simp at hq) l1 r l2 he ⟨hfail, hreq⟩

/-- Witness for C4, the spec's Scenario C: order is [A, B, C]; A
completes, required B exhausts retries and FAILS, and the result list
ends there — C is never attempted. -/
theorem enrich_required_failure_halts_witness :
    c4pipe.step_order = ["A", "B", "C"] ∧
    (c4pipe.enrich "p" []).enrichment_results = [c4resA] ++ c4resB :: [] ∧
    ([] : List EnrichmentResult) = [] :=
  ⟨rfl, rfl,
    enrich_required_failure_halts c4pipe "p" [] [c4resA] c4resB [] rfl rfl
      ⟨c4stepB, rfl, rfl⟩⟩

/-- If a dependency name resolves to no step, and every recorded result
belongs to a resolvable step, then the dependency check fails: no result
can ever carry the dangling name. -/
theorem depsMet_false_of_dangling (pipe : EnrichmentPipeline)
    (results : List EnrichmentResult) (deps : List String) (d : String)
    (hd : d ∈ deps) (hnone : pipe.get_step d = Option.none)
    (hres : ∀ r ∈ results, (pipe.get_step r.step_name).isSome) :
    depsMet results deps = false := by
  cases hv : depsMet results deps with
  | false => rfl
  | true =>
    exfalso
    unfold depsMet at hv
    have h2 := (List.all_eq_true.mp hv) d hd
    obtain ⟨r, hr, hb⟩ := List.any_eq_true.mp h2
    rw [Bool.and_eq_true] at hb
    obtain ⟨hb1, -⟩ := hb
    have hname : r.step_name = d := eq_of_beq hb1
    have hsome := hres r hr
    rw [hname, hnone] at hsome
    simp at hsome

/-- Invariant of the `enrich` step loop for a step with a dangling
dependency: every recorded result belongs to a resolvable step, and
every result recorded under the dangling-dependency step's name is
SKIPPED (its dependency check can never pass). -/
theorem enrichLoop_dangling_skipped (pipe : EnrichmentPipeline)
    (step : EnrichmentStep) (d : String)
    (hfirst : pipe.get_step step.name = some step)
    (hd : d ∈ step.depends_on) (hnone : pipe.get_step d = Option.none) :
    ∀ (names : List String) (rec : ProspectRecord),
      (∀ r ∈ rec.enrichment_results, (pipe.get_step r.step_name).isSome) →
      (∀ r ∈ rec.enrichment_results,
        r.step_name = step.name → r.status = .SKIPPED) →
      (∀ r ∈ (enrichLoop pipe names rec).enrichment_results,
          (pipe.get_step r.step_name).isSome) ∧
      (∀ r ∈ (enrichLoop pipe names rec).enrichment_results,
          r.step_name = step.name → r.status = .SKIPPED) := by
  intro names
  induction names with
  | nil =>
    intro rec hJ hS
    rw [enrichLoop]
    exact ⟨hJ, hS⟩
  | cons n rest ih =>
    intro rec hJ hS
    cases hg : pipe.get_step n with
    | none =>
      simp only [enrichLoop, hg]
      exact ih rec hJ hS
    | some s =>
      simp only [enrichLoop, hg]
      have hsSome := get_step_self pipe n s hg
      by_cases hsname : s.name = step.name
      · have hs2 : s = step := by
          have hh := hsSome
          rw [hsname, hfirst] at hh
          injection hh with hh2
          exact hh2.symm
        subst hs2
        have hdm := depsMet_false_of_dangling pipe rec.enrichment_results
          s.depends_on d hd hnone hJ
        simp only [hdm, Bool.not_false, if_true]
        refine ih _ ?_ ?_
        · intro q hq
          rcases List.mem_append.mp hq with hq | hq
          · exact hJ q hq
          · have hq2 := List.mem_singleton.mp hq
            subst hq2
            show (pipe.get_step s.name).isSome = true
            rw [hsSome]
            rfl
        · intro q hq hqname
          rcases List.mem_append.mp hq with hq | hq
          · exact hS q hq hqname
          · have hq3 := List.mem_singleton.mp hq
            subst hq3
            rfl
      · by_cases hdm : depsMet rec.enrichment_results s.depends_on = true
        · simp only [hdm, Bool.not_true, Bool.false_eq_true, if_false]
          by_cases hrf : s.required = true ∧
              (s.execute rec.all_data).status = .FAILED
          · rw [if_pos hrf]
            constructor
            · intro q hq
              rcases List.mem_append.mp hq with hq | hq
              · exact hJ q hq
              · have hq2 := List.mem_singleton.mp hq
                subst hq2
                rw [execute_step_name s rec.all_data, hsSome]
                rfl
            · intro q hq hqname
              rcases List.mem_append.mp hq with hq | hq
              · exact hS q hq hqname
              · have hq2 := List.mem_singleton.mp hq
                subst hq2
                rw [execute_step_name s rec.all_data] at hqname
                exact absurd hqname hsname
          · rw [if_neg hrf]
            refine ih _ ?_ ?_
            · intro q hq
              rcases List.mem_append.mp hq with hq | hq
              · exact hJ q hq
              · have hq2 := List.mem_singleton.mp hq
                subst hq2
                rw [execute_step_name s rec.all_data, hsSome]
                rfl
            · intro q hq hqname
              rcases List.mem_append.mp hq with hq | hq
              · exact hS q hq hqname
              · have hq2 := List.mem_singleton.mp hq
                subst hq2
                rw [execute_step_name s rec.all_data] at hqname
                exact absurd hqname hsname
        · rw [Bool.not_eq_true] at hdm
          simp only [hdm, Bool.not_false, if_true]
          refine ih _ ?_ ?_
          · intro q hq
            rcases List.mem_append.mp hq with hq | hq
            · exact hJ q hq
            · have hq2 := List.mem_singleton.mp hq
              subst hq2
              show (pipe.get_step s.name).isSome = true
              rw [hsSome]
              rfl
          · intro q hq hqname
            rcases List.mem_append.mp hq with hq | hq
            · exact hS q hq hqname
            · have hq2 := List.mem_singleton.mp hq
              subst hq2
              exact absurd hqname hsname

/-- Counterexample to C7 as stated: adding a step whose `depends_on`
names a nonexistent step raises no error — the pipeline accepts it
(`add_step` performs no validation), and the consequence surfaces only
at enrichment time, when the step is recorded SKIPPED with the runtime
diagnostic "Dependencies not met". -/
theorem add_step_does_not_reject_dangling_dependency :
    (c7pipe0.add_step c7ghostStep).steps = [c7ghostStep] ∧
    ((c7pipe0.add_step c7ghostStep).enrich "p" []).enrichment_results =
      [c7skipRes] :=
  ⟨rfl, rfl⟩

/-- Claim C7 (amended): `add_step` accepts a step with a dangling
dependency without any error — the step is appended to the pipeline —
and the violation is deferred to a runtime effect: during `enrich`,
every result recorded under that step's name is SKIPPED, because its
dependency check can never find a COMPLETED result for the nonexistent
step. -/
theorem add_step_dangling_dependency_skipped_at_runtime
    (pipe : EnrichmentPipeline) (step : EnrichmentStep) (d : String)
    (hd : d ∈ step.depends_on)
    (hfirst : (pipe.add_step step).get_step step.name = some step)
    (hnone : (pipe.add_step step).get_step d = Option.none) :
    (pipe.add_step step).steps = pipe.steps ++ [step] ∧
    ∀ prospect_id initial_data r,
      r ∈ ((pipe.add_step step).enrich prospect_id
        initial_data).enrichment_results →
      r.step_name = step.name → r.status = .SKIPPED := by
  refine ⟨rfl, ?_⟩
  intro pid init r hr hname
  exact (enrichLoop_dangling_skipped (pipe.add_step step) step d hfirst hd hnone
    (pipe.add_step step).step_order
    { prospect_id := pid, initial_data := init }
    (by intro q hq; simp at hq) (by intro q hq; simp at hq)).2 r hr hname

/-- Witness for amended C7: the ghost-dependency pipeline appends the
step, and its single recorded result is SKIPPED. -/
theorem add_step_dangling_dependency_skipped_at_runtime_witness :
    (c7pipe0.add_step c7ghostStep).steps = c7pipe0.steps ++ [c7ghostStep] ∧
    c7skipRes.status = .SKIPPED := by
  refine ⟨(add_step_dangling_dependency_skipped_at_runtime c7pipe0 c7ghostStep
    "ghost" (by simp [c7ghostStep]) rfl rfl).1, ?_⟩
  refine (add_step_dangling_dependency_skipped_at_runtime c7pipe0 c7ghostStep
    "ghost" (by simp [c7ghostStep]) rfl rfl).2 "p" [] c7skipRes ?_ rfl
  rw [show ((c7pipe0.add_step c7ghostStep).enrich "p" []).enrichment_results =
    [c7skipRes] from rfl]
  exact List.mem_singleton.mpr rfl

/-- `visit` on an already-visited name is the identity. -/
theorem visit_visited (steps : List EnrichmentStep) (f : Nat) (n : String)
    (st : List String × List String) (h : n ∈ st.1) :
    visit steps (f + 1) n st = st := by
  rw [visit, if_pos h]

/-- `visit` on a fresh name that resolves to no step only marks it
visited. -/
theorem visit_nostep (steps : List EnrichmentStep) (f : Nat) (n : String)
    (st : List String × List String) (h : n ∉ st.1)
    (h2 : findStep steps n = Option.none) :
    visit steps (f + 1) n st = (n :: st.1, st.2) := by
  rw [visit, if_neg h]
  simp only [h2]

/-- `visit` on a fresh step name: mark visited, recurse into the
dependencies, then append the name post-order. -/
theorem visit_step (steps : List EnrichmentStep) (f : Nat) (n : String)
    (st : List String × List String) (s : EnrichmentStep) (h : n ∉ st.1)
    (h2 : findStep steps n = some s) :
    visit steps (f + 1) n st =
      ((s.depends_on.foldl (fun acc d => visit steps f d acc)
          (n :: st.1, st.2)).1,
       (s.depends_on.foldl (fun acc d => visit steps f d acc)
          (n :: st.1, st.2)).2 ++ [n]) := by
  rw [visit, if_neg h]
  simp only [h2]

/-- The empty order vacuously satisfies `DepsDone`. -/
theorem depsDone_nil (steps : List EnrichmentStep) : DepsDone steps [] := by
  intro l1 n l2 h
  exact absurd h.symm (List.append_ne_nil_of_right_ne_nil l1 (List.cons_ne_nil n l2))

/-- The initial state satisfies the visit invariant with no greys. -/
theorem topoInv_init (steps : List EnrichmentStep) :
    TopoInv steps [] ([], []) := by
  refine ⟨?_, ?_, ?_, List.nodup_nil, ?_, depsDone_nil steps⟩ <;>
    intro a ha <;> simp at ha

/-- Specification of `visit` under a height function for the dependency
graph (`r d < r s.name` along every dependency edge, the standard
witness of acyclicity): `visit` only appends to the order, only grows
the visited set, preserves the invariant, and leaves the visited name
ordered or grey. -/
theorem visit_spec (steps : List EnrichmentStep) (r : String → Nat)
    (hrank : ∀ s ∈ steps, ∀ d ∈ s.depends_on, r d < r s.name) :
    ∀ (fuel : Nat) (n : String) (G : List String)
      (st : List String × List String),
      r n < fuel → (∀ g ∈ G, r n < r g) → TopoInv steps G st →
      (∃ tail, (visit steps fuel n st).2 = st.2 ++ tail) ∧
      (∀ a ∈ st.1, a ∈ (visit steps fuel n st).1) ∧
      TopoInv steps G (visit steps fuel n st) ∧
      ((findStep steps n).isSome → n ∈ (visit steps fuel n st).2 ∨ n ∈ G) := by
  intro fuel
  induction fuel with
  | zero =>
    intro n G st hfuel
    exact absurd hfuel (Nat.not_lt_zero _)
  | succ f ihf =>
    have hfold : ∀ (ds : List String) (G' : List String),
        (∀ d ∈ ds, r d < f) →
        (∀ d ∈ ds, ∀ g ∈ G', r d < r g) →
        ∀ st', TopoInv steps G' st' →
        (∃ tail, (ds.foldl (fun acc d => visit steps f d acc) st').2 =
          st'.2 ++ tail) ∧
        (∀ a ∈ st'.1, a ∈ (ds.foldl (fun acc d => visit steps f d acc) st').1) ∧
        TopoInv steps G' (ds.foldl (fun acc d => visit steps f d acc) st') ∧
        (∀ d ∈ ds, (findStep steps d).isSome →
          d ∈ (ds.foldl (fun acc d => visit steps f d acc) st').2 ∨ d ∈ G') := by
      intro ds
      induction ds with
      | nil =>
        intro G' hrd hgr st' hInv
        refine ⟨⟨[], by simp⟩, ?_, hInv, ?_⟩
        · intro a ha; simpa using ha
        · intro d hd; simp at hd
      | cons d0 ds ihd =>
        intro G' hrd hgr st' hInv
        have hv := ihf d0 G' st' (hrd d0 (List.mem_cons_self d0 ds))
          (hgr d0 (List.mem_cons_self d0 ds)) hInv
        obtain ⟨⟨t1, ht1⟩, hmono1, hInv1, hd0⟩ := hv
        have hrest := ihd G' (fun d hd => hrd d (List.mem_cons_of_mem d0 hd))
          (fun d hd => hgr d (List.mem_cons_of_mem d0 hd))
          (visit steps f d0 st') hInv1
        obtain ⟨⟨t2, ht2⟩, hmono2, hInv2, hds2⟩ := hrest
        rw [List.foldl_cons]
        refine ⟨⟨t1 ++ t2, by rw [ht2, ht1, List.append_assoc]⟩, ?_, hInv2, ?_⟩
        · intro a ha
          exact hmono2 a (hmono1 a ha)
        · intro d hd hsome
          rcases List.mem_cons.mp hd with hd | hd
          · subst hd
            rcases hd0 hsome with h | h
            · exact Or.inl (ht2 ▸ List.mem_append.mpr (Or.inl h))
            · exact Or.inr h
          · exact hds2 d hd hsome
    intro n G st hfuel hG hInv
    obtain ⟨hI1, hI2, hI3, hI4, hI5, hI6⟩ := hInv
    by_cases hv : n ∈ st.1
    · rw [visit_visited steps f n st hv]
      refine ⟨⟨[], by simp⟩, fun a ha => ha, ⟨hI1, hI2, hI3, hI4, hI5, hI6⟩, ?_⟩
      intro hsome
      rcases hI3 n hv with h | h | h
      · exact Or.inl h
      · exact Or.inr h
      · rw [h] at hsome; simp at hsome
    · cases hf2 : findStep steps n with
      | none =>
        rw [visit_nostep steps f n st hv hf2]
        refine ⟨⟨[], by simp⟩, ?_, ?_, ?_⟩
        · intro a ha; exact List.mem_cons_of_mem n ha
        · refine ⟨?_, ?_, ?_, hI4, hI5, hI6⟩
          · intro a ha; exact List.mem_cons_of_mem n (hI1 a ha)
          · intro g hg; exact List.mem_cons_of_mem n (hI2 g hg)
          · intro a ha
            rcases List.mem_cons.mp ha with h | h
            · subst h; exact Or.inr (Or.inr hf2)
            · exact hI3 a h
        · intro hsome
          simp at hsome
      | some s =>
        have hsmem : s ∈ steps := by
          unfold findStep at hf2
          exact List.mem_of_find?_eq_some hf2
        have hsname : s.name = n := by
          unfold findStep at hf2
          have hp := List.find?_some hf2
          have hp2 : (s.name == n) = true := hp
          exact eq_of_beq hp2
        have hds : ∀ d ∈ s.depends_on, r d < r n := by
          intro d hd
          have h := hrank s hsmem d hd
          rwa [hsname] at h
        have hInv1 : TopoInv steps (n :: G) (n :: st.1, st.2) := by
          refine ⟨?_, ?_, ?_, hI4, ?_, hI6⟩
          · intro a ha; exact List.mem_cons_of_mem n (hI1 a ha)
          · intro g hg
            rcases List.mem_cons.mp hg with h | h
            · rw [h]; exact List.mem_cons_self n st.1
            · exact List.mem_cons_of_mem n (hI2 g h)
          · intro a ha
            rcases List.mem_cons.mp ha with h | h
            · rw [h]; exact Or.inr (Or.inl (List.mem_cons_self n G))
            · rcases hI3 a h with h1 | h1 | h1
              · exact Or.inl h1
              · exact Or.inr (Or.inl (List.mem_cons_of_mem n h1))
              · exact Or.inr (Or.inr h1)
          · intro g hg
            rcases List.mem_cons.mp hg with h | h
            · subst h; intro hmem; exact hv (hI1 g hmem)
            · exact hI5 g h
        have hgr : ∀ d ∈ s.depends_on, ∀ g ∈ n :: G, r d < r g := by
          intro d hd g hg
          rcases List.mem_cons.mp hg with h | h
          · subst h; exact hds d hd
          · exact lt_trans (hds d hd) (hG g h)
        have hrd : ∀ d ∈ s.depends_on, r d < f := by
          intro d hd
          exact lt_of_lt_of_le (hds d hd) (Nat.lt_succ_iff.mp hfuel)
        have hF := hfold s.depends_on (n :: G) hrd hgr (n :: st.1, st.2) hInv1
        obtain ⟨⟨tail, htail⟩, hmono, hInvF, hdsF⟩ := hF
        obtain ⟨hF1, hF2, hF3, hF4, hF5, hF6⟩ := hInvF
        have hdepsIn : ∀ d ∈ s.depends_on, (findStep steps d).isSome →
            d ∈ (s.depends_on.foldl (fun acc d => visit steps f d acc)
              (n :: st.1, st.2)).2 := by
          intro d hd hsome
          rcases hdsF d hd hsome with h | h
          · exact h
          · exfalso
            rcases List.mem_cons.mp h with h2 | h2
            · have hlt := hds d hd
              rw [h2] at hlt
              exact lt_irrefl _ hlt
            · exact lt_irrefl _ (lt_trans (hG d h2) (hds d hd))
        have hnnot : n ∉ (s.depends_on.foldl (fun acc d => visit steps f d acc)
            (n :: st.1, st.2)).2 :=
          hF5 n (List.mem_cons_self n G)
        have hnvis : n ∈ (s.depends_on.foldl (fun acc d => visit steps f d acc)
            (n :: st.1, st.2)).1 :=
          hmono n (List.mem_cons_self n st.1)
        rw [visit_step steps f n st s hv hf2]
        refine ⟨⟨tail ++ [n], by rw [htail, List.append_assoc]⟩, ?_, ?_, ?_⟩
        · intro a ha
          exact hmono a (List.mem_cons_of_mem n ha)
        · refine ⟨?_, ?_, ?_, ?_, ?_, ?_⟩
          · intro a ha
            rcases List.mem_append.mp ha with h | h
            · exact hF1 a h
            · rw [List.mem_singleton.mp h]; exact hnvis
          · intro g hg
            exact hF2 g (List.mem_cons_of_mem n hg)
          · intro a ha
            rcases hF3 a ha with h | h | h
            · exact Or.inl (List.mem_append.mpr (Or.inl h))
            · rcases List.mem_cons.mp h with h2 | h2
              · subst h2
                exact Or.inl (List.mem_append.mpr
                  (Or.inr (List.mem_singleton.mpr rfl)))
              · exact Or.inr (Or.inl h2)
            · exact Or.inr (Or.inr h)
          · rw [List.nodup_append]
            refine ⟨hF4, List.nodup_singleton n, ?_⟩
            intro a ha ha2
            rw [List.mem_singleton.mp ha2] at ha
            exact hnnot ha
          · intro g hg hmem
            rcases List.mem_append.mp hmem with h | h
            · exact hF5 g (List.mem_cons_of_mem n hg) h
            · rw [List.mem_singleton.mp h] at hg
              exact hv (hI2 n hg)
          · intro l1 m l2 hsplit s' hfind d hdmem hdsome
            have hsplit2 : (s.depends_on.foldl (fun acc d => visit steps f d acc)
                (n :: st.1, st.2)).2 ++ [n] = l1 ++ m :: l2 := hsplit
            rcases append_singleton_eq_split _ l1 l2 m n hsplit2 with
              ⟨hl1, hmn, _⟩ | ⟨l2p, hl, _⟩
            · subst hmn
              rw [hf2] at hfind
              have hs' : s = s' := by injection hfind
              subst hs'
              rw [hl1]
              exact hdepsIn d hdmem hdsome
            · exact hF6 l1 m l2p hl s' hfind d hdmem hdsome
        · intro _
          exact Or.inl (List.mem_append.mpr
            (Or.inr (List.mem_singleton.mpr rfl)))

/-- The top loop of `_recalculate_order` preserves the invariant and
puts every processed step name that resolves to a step into the order. -/
theorem recalcFold_spec (steps : List EnrichmentStep) (r : String → Nat)
    (hrank : ∀ s ∈ steps, ∀ d ∈ s.depends_on, r d < r s.name) :
    ∀ (l : List EnrichmentStep) (st : List String × List String),
      (∀ s ∈ l, r s.name < steps.length + 1) →
      TopoInv steps [] st →
      (∃ tail, (l.foldl (fun acc s =>
        visit steps (steps.length + 1) s.name acc) st).2 = st.2 ++ tail) ∧
      TopoInv steps [] (l.foldl (fun acc s =>
        visit steps (steps.length + 1) s.name acc) st) ∧
      (∀ s ∈ l, (findStep steps s.name).isSome →
        s.name ∈ (l.foldl (fun acc s =>
          visit steps (steps.length + 1) s.name acc) st).2) := by
  intro l
  induction l with
  | nil =>
    intro st hb hInv
    refine ⟨⟨[], by simp⟩, hInv, ?_⟩
    intro s hs
    simp at hs
  | cons s0 rest ih =>
    intro st hb hInv
    have hv := visit_spec steps r hrank (steps.length + 1) s0.name [] st
      (hb s0 (List.mem_cons_self s0 rest)) (by intro g hg; simp at hg) hInv
    obtain ⟨⟨t1, ht1⟩, hmono1, hInv1, hlast1⟩ := hv
    have hrest := ih (visit steps (steps.length + 1) s0.name st)
      (fun s hs => hb s (List.mem_cons_of_mem s0 hs)) hInv1
    obtain ⟨⟨t2, ht2⟩, hInv2, hmem2⟩ := hrest
    rw [List.foldl_cons]
    refine ⟨⟨t1 ++ t2, by rw [ht2, ht1, List.append_assoc]⟩, hInv2, ?_⟩
    intro s hs hsome
    rcases List.mem_cons.mp hs with h | h
    · subst h
      rcases hlast1 hsome with h2 | h2
      · exact ht2 ▸ List.mem_append.mpr (Or.inl h2)
      · simp at h2
    · exact hmem2 s h hsome

/-- Claim C3 (amended): for every pipeline whose dependency graph is
acyclic — witnessed by a height function `r` decreasing along dependency
edges and bounded by the number of steps — every name that resolves to a
step appears in the order computed by `_recalculate_order`, and every
declared dependency of that step which itself resolves to a step appears
strictly before it.  (Dependencies naming no step never appear in the
order at all, and on a cyclic graph the order can violate the property;
see the counterexample.) -/
theorem recalculate_order_topological (steps : List EnrichmentStep)
    (r : String → Nat)
    (hrank : ∀ s ∈ steps, ∀ d ∈ s.depends_on, r d < r s.name)
    (hbound : ∀ s ∈ steps, r s.name < steps.length + 1)
    (n : String) (s : EnrichmentStep) (hfind : findStep steps n = some s) :
    ∃ l1 l2, recalculate_order steps = l1 ++ n :: l2 ∧
      ∀ d ∈ s.depends_on, (findStep steps d).isSome → d ∈ l1 := by
  obtain ⟨-, hInv, hmem⟩ :=
    recalcFold_spec steps r hrank steps ([], []) hbound (topoInv_init steps)
  have hsmem : s ∈ steps := by
    unfold findStep at hfind
    exact List.mem_of_find?_eq_some hfind
  have hsname : s.name = n := by
    unfold findStep at hfind
    have hp := List.find?_some hfind
    have hp2 : (s.name == n) = true := hp
    exact eq_of_beq hp2
  have hnord : n ∈ (steps.foldl (fun acc s =>
      visit steps (steps.length + 1) s.name acc) ([], [])).2 := by
    have h := hmem s hsmem (by rw [hsname, hfind]; rfl)
    rwa [hsname] at h
  obtain ⟨l1, l2, hsplit⟩ := List.append_of_mem hnord
  refine ⟨l1, l2, hsplit, ?_⟩
  intro d hd hdsome
  exact hInv.2.2.2.2.2 l1 n l2 hsplit s hfind d hd hdsome

/-- Counterexample to C3 as stated: on the cyclic pipeline {A depends on
[B, ghost], B depends on [A]} the computed order is [B, A]: step B's
declared dependency A appears strictly after B, and step A's declared
dependency "ghost" appears nowhere in the order. -/
theorem recalculate_order_cycle_not_topological :
    recalculate_order [c3cycA, c3cycB] = ["B", "A"] ∧
    "A" ∈ c3cycB.depends_on ∧
    ¬(List.indexOf "A" (recalculate_order [c3cycA, c3cycB]) <
      List.indexOf "B" (recalculate_order [c3cycA, c3cycB])) ∧
    "ghost" ∈ c3cycA.depends_on ∧
    "ghost" ∉ recalculate_order [c3cycA, c3cycB] := by
  refine ⟨rfl, by decide, by decide, by decide, by decide⟩

/-- Witness for amended C3: the acyclic chain A ← B ← C with the obvious
height function; the dependency of C appears strictly before it. -/
theorem recalculate_order_topological_witness :
    ∃ l1 l2, recalculate_order [c3stepA, c3stepB, c3stepC] =
        l1 ++ "C" :: l2 ∧
      ∀ d ∈ c3stepC.depends_on,
        (findStep [c3stepA, c3stepB, c3stepC] d).isSome → d ∈ l1 := by
  refine recalculate_order_topological [c3stepA, c3stepB, c3stepC] c3rank
    ?_ ?_ "C" c3stepC rfl
  · intro s hs
    fin_cases hs <;> decide
  · intro s hs
    fin_cases hs <;> decide

end Clayworks
